import Mathlib

/-!
# Verification of the nessai nested-sampling core

Shallow embedding of the core of the `nessai` nested-sampling engine:

* `NS` — the classical evidence integrator `_NSintegralState`
  (`src/flowproposal/nestedsampler.py`), over an exact-real model of
  IEEE-754 doubles (`LogF`).
* `Store` — the sorted live-point store and `insert_live_point`.
* `Pop` — `populate_live_points` over a value domain with NaN (`FVal`).
* `Train` — the training-set selection in `check_state`.
* `Imp` — the importance proposal: `_compute_log_Q_combined`,
  `update_samples` and `draw` (`src/nessai/proposal/importance.py`).
-/

/--
Exact model of an IEEE-754 double interpreted as a log-space value:
either NaN, `-inf`, `+inf`, or a finite real.  Finite-precision rounding is
not modelled (finite values are exact reals); the special values and their
propagation rules follow IEEE-754 as implemented by numpy.
-/
inductive LogF : Type
  | nan
  | neginf
  | posinf
  | fin (x : ℝ)

namespace LogF

/-- `np.isfinite`. -/
def isfinite : LogF → Bool
  | fin _ => true
  | _ => false

/-- `np.isnan`. -/
def isnan : LogF → Bool
  | nan => true
  | _ => false

/-- IEEE negation of a double. -/
def neg : LogF → LogF
  | nan => nan
  | neginf => posinf
  | posinf => neginf
  | fin x => fin (-x)

/-- IEEE addition of doubles: NaN propagates, `-inf + +inf = NaN`. -/
noncomputable def add : LogF → LogF → LogF
  | nan, _ => nan
  | _, nan => nan
  | neginf, posinf => nan
  | posinf, neginf => nan
  | neginf, _ => neginf
  | _, neginf => neginf
  | posinf, _ => posinf
  | _, posinf => posinf
  | fin x, fin y => fin (x + y)

/-- IEEE subtraction, `a - b = a + (-b)`. -/
noncomputable def sub (a b : LogF) : LogF := a.add b.neg

/-- IEEE multiplication: NaN propagates and `±inf * 0 = NaN`. -/
noncomputable def mul : LogF → LogF → LogF
  | nan, _ => nan
  | _, nan => nan
  | posinf, posinf => posinf
  | posinf, neginf => neginf
  | neginf, posinf => neginf
  | neginf, neginf => posinf
  | posinf, fin x => if x = 0 then nan else if x < 0 then neginf else posinf
  | fin x, posinf => if x = 0 then nan else if x < 0 then neginf else posinf
  | neginf, fin x => if x = 0 then nan else if x < 0 then posinf else neginf
  | fin x, neginf => if x = 0 then nan else if x < 0 then posinf else neginf
  | fin x, fin y => fin (x * y)

/-- IEEE division of a double by a double that is a plain real
(the only divisors the integrator produces).  `x / 0` follows IEEE signs,
`0 / 0 = NaN`. -/
noncomputable def divR : LogF → ℝ → LogF
  | nan, _ => nan
  | neginf, d => if d < 0 then posinf else neginf
  | posinf, d => if d < 0 then neginf else posinf
  | fin x, d =>
      if d = 0 then (if x = 0 then nan else if x < 0 then neginf else posinf)
      else fin (x / d)

/-- `np.exp` on a double: `exp(-inf) = 0`, `exp(+inf) = +inf`. -/
noncomputable def exp : LogF → LogF
  | nan => nan
  | neginf => fin 0
  | posinf => posinf
  | fin x => fin (Real.exp x)

/-- `np.logaddexp`: `log(exp a + exp b)` with the IEEE special cases
(`-inf` is the identity, `+inf` absorbs, NaN propagates). -/
noncomputable def logaddexp : LogF → LogF → LogF
  | nan, _ => nan
  | _, nan => nan
  | neginf, b => b
  | a, neginf => a
  | posinf, _ => posinf
  | _, posinf => posinf
  | fin x, fin y => fin (Real.log (Real.exp x + Real.exp y))

/-- The IEEE comparison `a <= b` (false whenever either side is NaN). -/
def le : LogF → LogF → Prop
  | nan, _ => False
  | _, nan => False
  | neginf, _ => True
  | _, posinf => True
  | posinf, _ => False
  | _, neginf => False
  | fin a, fin b => a ≤ b

end LogF

namespace NS

/--
State of the nested-sampling evidence integrator `_NSintegralState`
(`src/flowproposal/nestedsampler.py`, lines 27-89).  `logw` and the
`log_vols` entries are plain reals: they are only ever built from `0` by
adding the finite step `logt`, mirroring the floats in the source.
-/
structure NSintegralState where
  nlive : ℕ
  iteration : ℕ
  logZ : LogF
  oldZ : LogF
  logw : ℝ
  info : List LogF
  logLs : List LogF
  log_vols : List ℝ
  gradients : List LogF

/-- `_NSintegralState.reset` (lines 35-47). -/
def reset (nlive : ℕ) : NSintegralState where
  nlive := nlive
  iteration := 0
  logZ := .neginf
  oldZ := .neginf
  logw := 0
  info := [.fin 0]
  logLs := [.neginf]
  log_vols := [0]
  gradients := [.fin 0]

/-- Modelled from the spec: `logsubexp(0, x)`, the stable `log(1 - exp x)`
primitive (`posterior.logsubexp` is imported by the source but its module is
not part of the repository snapshot; the spec specifies
`Wt = logw + logL + log(1 - exp(logt))`). -/
noncomputable def log1mexp (x : ℝ) : ℝ := Real.log (1 - Real.exp x)

/-- `logt = -1.0 / nlive` in `increment` (line 60), with the optional
`nlive` override of lines 57-58. -/
noncomputable def logt (s : NSintegralState) (nliveOverride : Option ℕ) : ℝ :=
  -1 / (nliveOverride.getD s.nlive : ℕ)

/-- `Wt = self.logw + logL + logsubexp(0, logt)` (line 61). -/
noncomputable def Wt (s : NSintegralState) (logL : LogF)
    (nliveOverride : Option ℕ) : LogF :=
  ((LogF.fin s.logw).add logL).add (.fin (log1mexp (logt s nliveOverride)))

/-- `self.logZ = np.logaddexp(self.logZ, Wt)` (line 62). -/
noncomputable def logZnext (s : NSintegralState) (logL : LogF)
    (nliveOverride : Option ℕ) : LogF :=
  s.logZ.logaddexp (Wt s logL nliveOverride)

/-- The raw information update of lines 65-68, before the NaN clamp:
`exp(Wt - logZ) * logL + exp(oldZ - logZ) * (info[-1] + oldZ) - logZ`,
computed in IEEE arithmetic.  `info[-1]` is read with default `0`
(`info` is never empty after `reset`). -/
noncomputable def infoRaw (s : NSintegralState) (logL : LogF)
    (nliveOverride : Option ℕ) : LogF :=
  let oldZ := s.logZ
  let logZ1 := logZnext s logL nliveOverride
  ((((Wt s logL nliveOverride).sub logZ1).exp.mul logL).add
    ((oldZ.sub logZ1).exp.mul ((s.info.getLastD (.fin 0)).add oldZ))).sub logZ1

/-- The information history after one `increment`: lines 64-71.  The update
is only pushed when `oldZ`, the new `logZ` and `logL` are all finite, and a
NaN result is clamped to `0` (lines 69-70). -/
noncomputable def infoNext (s : NSintegralState) (logL : LogF)
    (nliveOverride : Option ℕ) : List LogF :=
  if s.logZ.isfinite && (logZnext s logL nliveOverride).isfinite && logL.isfinite then
    s.info ++ [if (infoRaw s logL nliveOverride).isnan then .fin 0
               else infoRaw s logL nliveOverride]
  else s.info

/--
`_NSintegralState.increment(logL, nlive=None)` (lines 49-79).
The non-monotonicity warning (lines 54-56) is log-only and not modelled.
-/
noncomputable def increment (s : NSintegralState) (logL : LogF)
    (nliveOverride : Option ℕ) : NSintegralState :=
  let logw1 := s.logw + logt s nliveOverride
  { s with
    iteration := s.iteration + 1
    logZ := logZnext s logL nliveOverride
    logw := logw1
    info := infoNext s logL nliveOverride
    logLs := s.logLs ++ [logL]
    log_vols := s.log_vols ++ [logw1]
    gradients := s.gradients ++
      [(logL.sub (s.logLs.getLastD .neginf)).divR (logw1 - s.log_vols.getLastD 0)] }

/-- Run a sequence of `increment` calls (each with an optional `nlive`
override) from a given state. -/
noncomputable def incrementAll (s : NSintegralState) :
    List (LogF × Option ℕ) → NSintegralState
  | [] => s
  | (l, n) :: rest => incrementAll (increment s l n) rest

end NS

namespace NS

/-- A live point of the classical sampler as consumed by the loop's exit
segment: only `logL` is read (fed to the integrator); the point itself is
moved to the nested samples. -/
structure ClassicalPoint where
  params : List ℝ
  logP : LogF
  logL : LogF

/-- Observable calls made by the tail of `nested_sampling_loop`, in
program order. -/
inductive LoopEvent : Type
  | increment (logL : LogF) (nliveOverride : ℕ)
  | appendNested
  | finalise
  | ksTest

/-- Modelled from the spec: `log_integrate_log_trap(logLs, log_vols)`, the
"trapezoidal rule in log-space" over the stored grid (the `posterior`
module it is imported from is not part of the repository snapshot):
`logsumexp_i [ logaddexp(logL_i, logL_{i+1}) - log 2 + log(X_i - X_{i+1}) ]`
with `X = exp(log_vols)`. -/
noncomputable def log_integrate_log_trap (logLs : List LogF)
    (log_vols : List ℝ) : LogF :=
  (((logLs.zip logLs.tail).zip (log_vols.zip log_vols.tail)).map
    (fun p => ((LogF.logaddexp p.1.1 p.1.2).sub (.fin (Real.log 2))).add
      (.fin (Real.log (Real.exp p.2.1 - Real.exp p.2.2))))).foldl
    LogF.logaddexp .neginf

/-- `_NSintegralState.finalise` (lines 81-89): replace the stored `logZ`
with the trapezoidal integral of `(logLs, log_vols)` and return it. -/
noncomputable def finaliseState (s : NSintegralState) : NSintegralState × LogF :=
  ({ s with logZ := log_integrate_log_trap s.logLs s.log_vols },
   log_integrate_log_trap s.logLs s.log_vols)

/-- One step of the final-adjustment loop of `nested_sampling_loop`
(lines 790-792): for the `i`-th remaining live point,
`state.increment(p['logL'], nlive=self.nlive - i)` and
`nested_samples.append(p)`. -/
noncomputable def loopExitStep (nlive : ℕ)
    (acc : NSintegralState × List ClassicalPoint × List LoopEvent)
    (ip : ℕ × ClassicalPoint) :
    NSintegralState × List ClassicalPoint × List LoopEvent :=
  (increment acc.1 ip.2.logL (some (nlive - ip.1)),
   acc.2.1 ++ [ip.2],
   acc.2.2 ++ [.increment ip.2.logL (nlive - ip.1), .appendNested])

/--
The exit segment of `NestedSampler.nested_sampling_loop` (lines 786-808),
entered when the loop stops (`condition <= tolerance` or
`iteration >= max_iteration`): iterate the final adjustments over
`enumerate(self.live_points)`, then `self.state.finalise()`, then (after
writing output files) the final KS test
`check_insertion_indices(rolling=False)`.  The intermediate
`update_state(force=True)` and the file/plot side effects do not touch the
integrator state or the nested samples and are not modelled.
-/
noncomputable def nested_sampling_loop_exit (nlive : ℕ) (s : NSintegralState)
    (live : List ClassicalPoint) (nested : List ClassicalPoint) :
    (NSintegralState × LogF) × List ClassicalPoint × List LoopEvent :=
  let r := live.enum.foldl (loopExitStep nlive) (s, nested, [])
  (finaliseState r.1, r.2.1, r.2.2 ++ [.finalise, .ksTest])

end NS

namespace Store

/--
A live point of the classical sampler's structured array
(`get_dtype(names) = names + [logP, logL]`, `src/flowproposal/livepoint`
interface): named coordinates plus the reserved `logP`/`logL` fields.
`logL` values are modelled as exact rationals; the store operations only
compare and move them.
-/
structure LivePoint where
  params : List ℚ
  logP : ℚ
  logL : ℚ
  deriving DecidableEq, Repr, Inhabited

/-- The ordering of the store: ascending by the `logL` column. -/
def byLogL (a b : LivePoint) : Prop := a.logL ≤ b.logL

instance : DecidableRel byLogL :=
  fun a b => inferInstanceAs (Decidable (a.logL ≤ b.logL))

/-- `np.searchsorted(col, v)` (default `side='left'`) on a sorted column:
the leftmost insertion index, i.e. the number of leading entries strictly
below `v`.  (On sorted input this is exactly what numpy's binary search
returns; `np.searchsorted` requires sorted input.) -/
def searchsorted (col : List ℚ) (v : ℚ) : ℕ :=
  (col.takeWhile (fun x => decide (x < v))).length

/--
`NestedSampler.insert_live_point` (`src/flowproposal/nestedsampler.py`,
lines 415-424), including numpy's slice-assignment semantics when the
computed index is `0`: `live[:index-1] = live[1:index]` becomes
`live[:-1] = live[1:0]`, which raises a broadcast `ValueError` when
`len(live) >= 2` (shapes `(n-1,)` vs `(0,)`), is a no-op when
`len(live) == 1` (after which `live[-1] = p` overwrites the only slot
and `-1` is returned), and `live[-1] = p` raises an `IndexError` on an
empty array.
-/
def insert_live_point (live : List LivePoint) (p : LivePoint) :
    Except String (List LivePoint × ℤ) :=
  let index := searchsorted (live.map (fun q => q.logL)) p.logL
  if index = 0 then
    if live.length = 0 then .error "IndexError: index -1 is out of bounds"
    else if live.length = 1 then .ok ([p], -1)
    else .error "ValueError: could not broadcast input array"
  else
    .ok ((live.take index).drop 1 ++ [p] ++ live.drop index, (index : ℤ) - 1)

end Store

namespace Pop

/-- A double in the populate pipeline: NaN, `±inf`, or a finite value
(modelled as an exact rational — only comparisons matter here). -/
inductive FVal : Type
  | nan
  | neginf
  | posinf
  | fin (q : ℚ)
  deriving DecidableEq, Repr

/-- `np.isfinite`. -/
def FVal.isfinite : FVal → Bool
  | .fin _ => true
  | _ => false

/-- Python's `x != -np.inf` on doubles: NaN compares as "not equal", so it
passes this check. -/
def FVal.neNegInf : FVal → Bool
  | .neginf => false
  | _ => true

/-- A candidate live point as yielded by `yield_sample`. -/
structure PopPoint where
  params : List ℚ
  logP : FVal
  logL : FVal
  deriving DecidableEq, Repr

/-- numpy's total sort order on the `logL` column, as used by
`np.sort(live_points, order='logL')`: `-inf` first, finite values in
order, `+inf`, then NaN last. -/
def npLe (a b : PopPoint) : Bool :=
  match a.logL, b.logL with
  | .neginf, _ => true
  | _, .nan => true
  | .nan, _ => false
  | _, .neginf => false
  | .fin x, .fin y => decide (x ≤ y)
  | .fin _, .posinf => true
  | .posinf, .posinf => true
  | .posinf, .fin _ => false

/--
The candidate-consuming loop of `NestedSampler.populate_live_points`
(`src/flowproposal/nestedsampler.py`, lines 487-507): consume candidates
yielded by `yield_sample(model.new_point())` one at a time, accepting a
candidate exactly when `logP != -inf and logL != -inf` (lines 502-503; a
NaN `logL` only emits a warning, lines 497-501), until `nlive` points are
stored.  The candidate stream is passed explicitly; if it is exhausted
before the store is full the source would keep drawing, which the model
reports as `none`.
-/
def populateAux (nlive : ℕ) : List PopPoint → List PopPoint → Option (List PopPoint)
  | [], acc => if acc.length = nlive then some acc else none
  | c :: rest, acc =>
      if acc.length = nlive then some acc
      else if c.logP.neNegInf && c.logL.neNegInf then
        populateAux nlive rest (acc ++ [c])
      else populateAux nlive rest acc

/-- `NestedSampler.populate_live_points` (lines 482-513): fill the store
from the candidate stream, then `np.sort(live_points, order='logL')`
(line 509). -/
def populate_live_points (nlive : ℕ) (stream : List PopPoint) :
    Option (List PopPoint) :=
  (populateAux nlive stream []).map (fun l => l.mergeSort npLe)

end Pop

namespace Train

/--
Training-set selection in `NestedSampler.check_state`
(`src/flowproposal/nestedsampler.py`, lines 614-622), over an abstract
sample type: start from a copy of the live points; when `memory` is set
(truthy, i.e. nonzero), the nested-sample list is nonempty and holds at
least `memory` samples, the source concatenates
`self.nested_samples[-self.memory]` — the *single* sample at index
`-memory` — not the slice `[-memory:]` of the last `memory` samples.
(`memory = 0` models `memory=False`, the default.)
-/
def training_data {α : Type} [Inhabited α]
    (live nested : List α) (memory : ℕ) : List α :=
  if memory ≠ 0 then
    if nested.length ≠ 0 then
      if nested.length ≥ memory then
        live ++ [nested.getD (nested.length - memory) default]
      else live
    else live
  else live

/-- Modelled from the spec: the training set the retraining policy is
specified to build — "current live points; optionally concatenate the last
`memory` nested samples" — i.e. the slice of the last `memory` nested
samples when `memory` is set and enough nested samples exist. -/
def training_data_spec {α : Type} (live nested : List α) (memory : ℕ) : List α :=
  if memory ≠ 0 ∧ nested.length ≥ memory then
    live ++ nested.drop (nested.length - memory)
  else live

end Train

namespace Imp

/--
A sample of the importance sampler.  The reserved fields follow the spec's
data model (`logG`, `logQ`, `logW` and `it` are added to the base dtype by
`add_extra_parameters_to_live_points` / the global config, whose module is
not part of the repository snapshot; modelled from the spec: "reserved
fields `logP`, `logL`, `it`, `logG`, `logQ`, `logW ≡ −logQ`").
-/
structure Sample where
  params : List ℝ
  logP : LogF
  logL : LogF
  it : ℤ
  logG : LogF
  logQ : LogF
  logW : LogF
  row : List LogF
  logj : LogF

/-- Field names of the structured dtype for a sample:
`get_dtype(names) = names + [logP, logL]` plus the extra parameters above.
numpy field access is case-sensitive: any other name raises `KeyError`. -/
def sampleFields (names : List String) : List String :=
  names ++ ["logP", "logL", "it", "logG", "logQ", "logW"]

/-- `np.log` of an integer count (`np.log(0) = -inf`). -/
noncomputable def natLog (k : ℕ) : LogF :=
  if k = 0 then .neginf else .fin (Real.log k)

/-- `scipy.special.logsumexp` along a row, as iterated `logaddexp`
(exact in real arithmetic; NaN propagates and `-inf` is the identity). -/
noncomputable def logsumexpF (l : List LogF) : LogF :=
  l.foldl LogF.logaddexp .neginf

/--
The meta-proposal bookkeeping of `ImportanceFlowProposal`:
`nModels = len(self.flow.models)`, `poolsize` the per-flow unnormalised
weights (`n_draws`, or `n_requested` when `reweight_draws`), and
`initialDraws` with `initial_log_q = log(initial_draws)`.
-/
structure MetaProposal where
  nModels : ℕ
  poolsize : List ℕ
  initialDraws : ℕ

/-- One row of the matrix `log_q` built in `_compute_log_Q_combined`
(lines 352-366): the per-flow log-probabilities of one sample
(`flow.log_prob_all`) with their weights, plus the optional newest-flow
column, with the Jacobian `log_j` added to every column. -/
noncomputable def rowTerms (mp : MetaProposal) (logqAll : List LogF)
    (logj : LogF) (lastTerm : Option LogF) : List LogF :=
  let base := (logqAll.zip mp.poolsize).map (fun p => p.1.add (natLog p.2))
  let cols := match lastTerm with
    | some lt => base ++ [lt]
    | none => base
  cols.map (fun c => c.add logj)

/-- The per-sample `log_Q` column before the prior component is added:
lines 348-374 of `_compute_log_Q_combined`.  `logqj = some ...` models
`log_q_j is not None` (`exclude_last`); the first branch is the
special case `exclude_last and len(self.flow.models) == 1`. -/
noncomputable def preLogQ (mp : MetaProposal)
    (rows : List (List LogF × LogF)) (logqj : Option (List LogF))
    (n : ℕ) : List LogF :=
  match logqj with
  | some lqj =>
      if mp.nModels = 1 then
        (lqj.zip rows).map (fun p => (p.1.add (natLog n)).add p.2.2)
      else
        (lqj.zip rows).map (fun p =>
          logsumexpF (rowTerms mp p.2.1 p.2.2 (some (p.1.add (natLog n)))))
  | none => rows.map (fun r => logsumexpF (rowTerms mp r.1 r.2 none))

/--
`ImportanceFlowProposal._compute_log_Q_combined`
(`src/nessai/proposal/importance.py`, lines 340-381): compute the
pre-initial `log_Q`, raise if it contains a NaN (line 376-377), combine
with the prior component `initial_log_q` via `logaddexp` (line 378), and
raise if the result contains a NaN (lines 379-380).
-/
noncomputable def compute_log_Q_combined (mp : MetaProposal)
    (rows : List (List LogF × LogF)) (logqj : Option (List LogF))
    (n : ℕ) : Except String (List LogF) :=
  if (preLogQ mp rows logqj n).any (fun v => v.isnan) then
    .error "There is a NaN in log q before initial!"
  else if (((preLogQ mp rows logqj n).map
      (fun v => LogF.logaddexp (natLog mp.initialDraws) v)).any
        (fun v => v.isnan)) then
    .error "There is a NaN in log g!"
  else .ok ((preLogQ mp rows logqj n).map
    (fun v => LogF.logaddexp (natLog mp.initialDraws) v))

/-- Per-sample body of `ImportanceFlowProposal.update_samples`
(lines 533-542): `new_log_Q = log_q + log_j + log(weight)`,
`logQ <- logaddexp(logQ, new_log_Q)`, `logW <- -logQ`. -/
noncomputable def updateSample (w : ℕ) (logq logj : LogF) (s : Sample) :
    Sample :=
  { s with
    logQ := s.logQ.logaddexp ((logq.add logj).add (natLog w))
    logW := (s.logQ.logaddexp ((logq.add logj).add (natLog w))).neg }

/--
`ImportanceFlowProposal.update_samples` (lines 516-542).  `levelCount < 0`
and a level without recorded draws raise (lines 524-532); otherwise every
sample's `logQ` absorbs the new level's weighted log-density (evaluated by
the external flow; passed here per sample) and `logW = -logQ` is
re-established.
-/
noncomputable def update_samples (levelCount : ℤ) (levelHasDraws : Bool)
    (w : ℕ) (flowOut : List (LogF × LogF)) (samples : List Sample) :
    Except String (List Sample) :=
  if levelCount < 0 then
    .error "Cannot update samples unless a level has been constructed!"
  else if !levelHasDraws then
    .error "Must draw samples from the new level before updating any existing samples!"
  else .ok ((samples.zip flowOut).map (fun p => updateSample w p.2.1 p.2.2 p.1))

/--
A candidate produced inside one batch of `ImportanceFlowProposal.draw`
(lines 436-451), after the external sampling and rescaling round trip:
`acc1` is the combined bounds/finiteness mask of lines 443-451, `row` and
`logj` the flow log-probabilities and Jacobian used for `log_Q`, `logqj`
the newest-flow log-probability from `sample_and_log_prob`, `logP` the
prior log-density, `logL` the log-likelihood the model would report.
-/
structure Candidate where
  params : List ℝ
  acc1 : Bool
  row : List LogF
  logj : LogF
  logqj : LogF
  logP : LogF
  logL : LogF

/-- Building a sample from an accepted candidate (lines 458-462): store
`logQ`, evaluate `logP`, set `logW = -logQ`.  `logL`/`it`/`logG` keep the
dtype defaults (`0`) at this point. -/
noncomputable def mkSample (c : Candidate) (q : LogF) : Sample :=
  { params := c.params, logP := c.logP, logL := .fin 0, it := 0,
    logG := .fin 0, logQ := q, logW := q.neg, row := c.row, logj := c.logj }

/-- IEEE `a <= b` as a Boolean (false when either side is NaN). -/
noncomputable def LogFleb : LogF → LogF → Bool
  | .nan, _ => false
  | _, .nan => false
  | .neginf, _ => true
  | _, .posinf => true
  | .posinf, _ => false
  | _, .neginf => false
  | .fin a, .fin b => decide (a ≤ b)

/-- The accepted candidates of one batch: the `acc` mask of
lines 443-456. -/
def keptOf (batch : List Candidate) : List Candidate :=
  batch.filter (fun c => c.acc1)

/-- The samples built from one batch after the finite-`logP`/`logW` filter
(lines 458-470). -/
noncomputable def batchSamples (batch : List Candidate) (qs : List LogF) :
    List Sample :=
  (((keptOf batch).zip qs).map (fun p => mkSample p.1 p.2)).filter
    (fun s => s.logP.isfinite && s.logW.isfinite)

/--
One iteration of the rejection loop in `ImportanceFlowProposal.draw`
(lines 436-484): apply the `acc` mask, compute `log_Q` for the kept
candidates (raising on NaN), set `logP`/`logW`, filter on finite
`logP` and `logW` (lines 463-470), and, when `logL_min` was given, execute
`x['logl'] = self.model.batch_evaluate_log_likelihood(x)` (line 473) —
`'logl'` (lower case) is not a field of the sample dtype, so numpy raises
`KeyError` whenever this line runs with a nonempty batch (unless the user
happened to name a parameter `"logl"`, in which case the likelihoods land
in that column instead of `logL`).
-/
noncomputable def processBatch (mp : MetaProposal) (n : ℕ)
    (names : List String) (logLmin : Option LogF) (batch : List Candidate) :
    Except String (List Sample) :=
  if (keptOf batch).isEmpty then .ok []
  else
    match compute_log_Q_combined mp ((keptOf batch).map (fun c => (c.row, c.logj)))
        (some ((keptOf batch).map (fun c => c.logqj))) n with
    | .error e => .error e
    | .ok qs =>
        if (batchSamples batch qs).isEmpty then .ok []
        else match logLmin with
          | some _ =>
              if "logl" ∈ sampleFields names then .ok (batchSamples batch qs)
              else .error "KeyError: no field named logl"
          | none => .ok (batchSamples batch qs)

/-- The `while n_accepted < n` loop of `draw` (lines 436-484) over the
stream of flow batches (`n_draw > 0` is constant in the source; batch
contents come from the external flow).  In `logL_min` mode the acceptance
count only advances for samples with `logL >= logL_min` (line 478). -/
noncomputable def drawLoop (mp : MetaProposal) (n : ℕ)
    (names : List String) (logLmin : Option LogF) :
    List (List Candidate) → ℕ → List Sample → Except String (List Sample)
  | [], _, samples => .ok samples
  | b :: rest, nAccepted, samples =>
      if nAccepted < n then
        match processBatch mp n names logLmin b with
        | .error e => .error e
        | .ok xs =>
            drawLoop mp n names logLmin rest
              (nAccepted + (match logLmin with
                | some lm => (xs.filter (fun s => LogFleb lm s.logL)).length
                | none => xs.length))
              (samples ++ xs)
      else .ok samples

/-- Cumulative counts of `true` flags: `np.cumsum(flags)` per index. -/
noncomputable def cumFlags (flags : List Bool) : List ℕ :=
  (List.range flags.length).map (fun i => ((flags.take (i + 1)).filter id).length)

/-- `np.argmax(bools)`: index of the first `True`, or `0` when none. -/
noncomputable def firstTrueIdx (l : List Bool) : ℕ :=
  match l.findIdx? (fun b => b) with
  | some i => i
  | none => 0

/-- The slice bound of lines 489-491: `np.argmax(np.cumsum(logL >= logL_min) >= n)`. -/
noncomputable def sliceIdx (n : ℕ) (lm : LogF) (samples : List Sample) : ℕ :=
  firstTrueIdx ((cumFlags (samples.map (fun s => LogFleb lm s.logL))).map
    (fun c => decide (n ≤ c)))

/--
`ImportanceFlowProposal.draw` (lines 406-514): run the batch loop, then
either truncate to `n` samples (`logL_min is None`, line 487) or slice up
to the `n`-th sample above the threshold (lines 489-492; `np.argmax` on an
empty array raises, and the slice keeps interleaved below-threshold
samples), assert at least `n` samples, and recompute `logQ`/`logW` under
the full meta-proposal (lines 500-506).  The `n_draws` bookkeeping and the
entropy logging do not change the returned samples and are not modelled.
-/
noncomputable def draw (mp : MetaProposal) (n : ℕ) (names : List String)
    (logLmin : Option LogF) (batches : List (List Candidate)) :
    Except String (List Sample) :=
  match drawLoop mp n names logLmin batches 0 [] with
  | .error e => .error e
  | .ok samples =>
      match logLmin with
      | none => .ok (samples.take n)
      | some lm =>
          if samples.isEmpty then
            .error "ValueError: attempt to get argmax of an empty sequence"
          else
            if (samples.take (sliceIdx n lm samples + 1)).length < n then
              .error "AssertionError: len(samples) >= n"
            else
              match compute_log_Q_combined mp
                  ((samples.take (sliceIdx n lm samples + 1)).map
                    (fun s => (s.row, s.logj))) none 0 with
              | .error e => .error e
              | .ok qs2 =>
                  .ok (((samples.take (sliceIdx n lm samples + 1)).zip qs2).map
                    (fun p => { p.1 with logQ := p.2, logW := p.2.neg }))

end Imp

namespace NS

theorem incrementAll_cons (s : NSintegralState) (l : LogF) (n : Option ℕ)
    (rest : List (LogF × Option ℕ)) :
    incrementAll s ((l, n) :: rest) = incrementAll (increment s l n) rest := rfl

/-- Length bookkeeping of one `increment` step. -/
theorem increment_lengths (s : NSintegralState) (l : LogF) (n : Option ℕ) :
    (increment s l n).logLs.length = s.logLs.length + 1 ∧
    (increment s l n).log_vols.length = s.log_vols.length + 1 ∧
    (increment s l n).gradients.length = s.gradients.length + 1 ∧
    (increment s l n).iteration = s.iteration + 1 ∧
    ((increment s l n).info = s.info ∨
      (increment s l n).info.length = s.info.length + 1) := by
  refine ⟨by simp [increment], by simp [increment], by simp [increment],
    by simp [increment], ?_⟩
  show infoNext s l n = s.info ∨ (infoNext s l n).length = s.info.length + 1
  unfold infoNext
  split
  · exact Or.inr (by simp)
  · exact Or.inl rfl

/-- The length invariant carried through any run of the integrator. -/
theorem incrementAll_invariant (inputs : List (LogF × Option ℕ)) :
    ∀ s : NSintegralState,
      (s.log_vols.length = s.logLs.length ∧ s.gradients.length = s.logLs.length ∧
        s.iteration + 1 = s.logLs.length ∧ s.info.length ≤ s.logLs.length) →
      ((incrementAll s inputs).log_vols.length = (incrementAll s inputs).logLs.length ∧
        (incrementAll s inputs).gradients.length = (incrementAll s inputs).logLs.length ∧
        (incrementAll s inputs).iteration + 1 = (incrementAll s inputs).logLs.length ∧
        (incrementAll s inputs).info.length ≤ (incrementAll s inputs).logLs.length) := by
  induction inputs with
  | nil => intro s h; exact h
  | cons p rest ih =>
      intro s h
      obtain ⟨h1, h2, h3, h4⟩ := h
      obtain ⟨e1, e2, e3, e4, e5⟩ := increment_lengths s p.1 p.2
      have : incrementAll s (p :: rest) = incrementAll (increment s p.1 p.2) rest := by
        cases p; rfl
      rw [this]
      refine ih _ ⟨by omega, by omega, by omega, ?_⟩
      rcases e5 with e5 | e5
      · rw [e5]; omega
      · omega

/--
C1 (counterexample): after `reset()` and a single `increment` with a finite
`logL`, `info` has length 1 but `logLs` has length 2 — the guard of
lines 64-71 skips the information push whenever `oldZ = -inf`, which is
always the case on the first increment.  So the four history lists do not
all have equal length.
-/
theorem integral_state_info_length_counterexample :
    (increment (reset 2) (.fin 0) none).info.length ≠
      (increment (reset 2) (.fin 0) none).logLs.length := by
  simp [increment, infoNext, reset, LogF.isfinite]

/--
C1 (amended): after `reset()` and every sequence of `increment` calls,
`log_vols`, `logLs` and `gradients` have equal length and
`iteration = len(logLs) - 1`; `info` only satisfies
`len(info) <= len(logLs)`, because the information push is guarded by
`oldZ`, `logZ` and `logL` all being finite (in particular it never happens
on the first increment, where `oldZ = -inf`).
-/
theorem integral_state_history_lengths (nlive : ℕ)
    (inputs : List (LogF × Option ℕ)) :
    (incrementAll (reset nlive) inputs).log_vols.length
        = (incrementAll (reset nlive) inputs).logLs.length ∧
    (incrementAll (reset nlive) inputs).gradients.length
        = (incrementAll (reset nlive) inputs).logLs.length ∧
    (incrementAll (reset nlive) inputs).iteration
        = (incrementAll (reset nlive) inputs).logLs.length - 1 ∧
    (incrementAll (reset nlive) inputs).info.length
        ≤ (incrementAll (reset nlive) inputs).logLs.length := by
  obtain ⟨h1, h2, h3, h4⟩ := incrementAll_invariant inputs (reset nlive)
    (by simp [reset])
  exact ⟨h1, h2, by omega, h4⟩

theorem increment_nlive (s : NSintegralState) (l : LogF) (n : Option ℕ) :
    (increment s l n).nlive = s.nlive := rfl

/-- Characterisation of `log_vols` and `logw` after a run of default-step
increments: each step appends `logw + logt` with `logt = -1/nlive`. -/
theorem log_vols_incrementAll_default (inputs : List LogF) :
    ∀ s : NSintegralState,
      (incrementAll s (inputs.map (fun l => (l, none)))).log_vols
          = s.log_vols ++ (List.range inputs.length).map
              (fun (i : ℕ) => s.logw + (-1 / (s.nlive : ℝ)) * ((i : ℝ) + 1)) ∧
      (incrementAll s (inputs.map (fun l => (l, none)))).logw
          = s.logw + (-1 / (s.nlive : ℝ)) * (inputs.length : ℝ) ∧
      (incrementAll s (inputs.map (fun l => (l, none)))).nlive = s.nlive := by
  induction inputs with
  | nil => intro s; simp [incrementAll]
  | cons l rest ih =>
      intro s
      have hstep : incrementAll s ((l :: rest).map (fun l => (l, none)))
          = incrementAll (increment s l none) (rest.map (fun l => (l, none))) := rfl
      obtain ⟨ih1, ih2, ih3⟩ := ih (increment s l none)
      have hw : (increment s l none).logw = s.logw + -1 / (s.nlive : ℝ) := by
        simp [increment, logt]
      have hv : (increment s l none).log_vols
          = s.log_vols ++ [s.logw + -1 / (s.nlive : ℝ)] := by
        simp [increment, logt]
      have hn : (increment s l none).nlive = s.nlive := rfl
      rw [hstep]
      refine ⟨?_, ?_, by rw [ih3, hn]⟩
      · rw [ih1, hv, hw, hn]
        rw [List.append_assoc]
        congr 1
        rw [List.length_cons, List.range_succ_eq_map]
        simp only [List.map_cons, List.map_map, List.singleton_append]
        congr 1
        · norm_num
        · refine List.map_congr_left ?_
          intro i _
          simp only [Function.comp_apply, Nat.cast_succ]
          ring
      · rw [ih2, hw, hn, List.length_cons]
        push_cast
        ring

/-- The cumulative default-step volumes, written as a single range map. -/
theorem cumulative_vols_eq (n len : ℕ) :
    (0 : ℝ) :: (List.range len).map
        (fun (i : ℕ) => (0 : ℝ) + -1 / (n : ℝ) * ((i : ℝ) + 1))
      = (List.range (len + 1)).map (fun (k : ℕ) => -(k : ℝ) / (n : ℝ)) := by
  induction len with
  | zero =>
      rw [show List.range 1 = [0] by rfl]
      norm_num
  | succ m ih =>
      calc (0 : ℝ) :: (List.range (m + 1)).map
              (fun (i : ℕ) => (0 : ℝ) + -1 / (n : ℝ) * ((i : ℝ) + 1))
          = ((0 : ℝ) :: (List.range m).map
              (fun (i : ℕ) => (0 : ℝ) + -1 / (n : ℝ) * ((i : ℝ) + 1)))
              ++ [(0 : ℝ) + -1 / (n : ℝ) * ((m : ℝ) + 1)] := by
            rw [List.range_succ, List.map_append, List.cons_append]
            rfl
        _ = (List.range (m + 1)).map (fun (k : ℕ) => -(k : ℝ) / (n : ℝ))
              ++ [-((m + 1 : ℕ) : ℝ) / (n : ℝ)] := by
            rw [ih]
            congr 2
            push_cast
            ring
        _ = (List.range (m + 1 + 1)).map (fun (k : ℕ) => -(k : ℝ) / (n : ℝ)) := by
            rw [show List.range (m + 1 + 1) = List.range (m + 1) ++ [m + 1]
              from List.range_succ (m + 1)]
            rw [List.map_append]
            rfl

/--
C2 (confirmed): for every positive `nlive`, after `reset()` followed by `k`
default-step increments (no `nlive` override), `log_vols` is exactly
`[0, -1/nlive, ..., -k/nlive]` — so `log_vols[k] = -k/nlive` — and
`log_vols` is strictly decreasing.  (Finite values are modelled as exact
reals; the accumulation `logw += logt` is exact here.)
-/
theorem log_vols_default_steps (nlive : ℕ) (h : 0 < nlive)
    (inputs : List LogF) :
    (incrementAll (reset nlive) (inputs.map (fun l => (l, none)))).log_vols
        = (List.range (inputs.length + 1)).map
            (fun (k : ℕ) => -(k : ℝ) / nlive) ∧
    (∀ k : ℕ, k ≤ inputs.length →
      (incrementAll (reset nlive)
        (inputs.map (fun l => (l, none)))).log_vols.getD k 0
          = -(k : ℝ) / nlive) ∧
    (incrementAll (reset nlive)
      (inputs.map (fun l => (l, none)))).log_vols.Chain' (· > ·) := by
  obtain ⟨h1, _, _⟩ := log_vols_incrementAll_default inputs (reset nlive)
  have hlist : (incrementAll (reset nlive)
      (inputs.map (fun l => (l, none)))).log_vols
      = (List.range (inputs.length + 1)).map
          (fun (k : ℕ) => -(k : ℝ) / nlive) := by
    rw [h1]
    simp only [reset]
    rw [List.singleton_append]
    exact cumulative_vols_eq nlive inputs.length
  refine ⟨hlist, ?_, ?_⟩
  · intro k hk
    rw [hlist]
    rw [List.getD_eq_getElem?_getD, List.getElem?_map, List.getElem?_range
      (by omega : k < inputs.length + 1)]
    rfl
  · rw [hlist]
    rw [List.chain'_map]
    rw [List.chain'_range_succ]
    intro m _
    have hn : (0 : ℝ) < nlive := by exact_mod_cast h
    have hlt : (-(↑(m + 1)) : ℝ) < -(↑m : ℝ) := by push_cast; linarith
    show -(↑m : ℝ) / nlive > -(↑(m + 1) : ℝ) / nlive
    rw [gt_iff_lt, div_lt_div_iff₀ hn hn]
    push_cast
    nlinarith

/-- Witness for C2 at `nlive = 2` with one increment. -/
theorem log_vols_default_steps_witness :
    0 < 2 ∧
    ((incrementAll (reset 2) ([LogF.fin 0].map (fun l => (l, none)))).log_vols
        = (List.range (1 + 1)).map (fun k => -(k : ℝ) / 2) ∧
    (∀ k : ℕ, k ≤ 1 →
      (incrementAll (reset 2)
        ([LogF.fin 0].map (fun l => (l, none)))).log_vols.getD k 0
          = -(k : ℝ) / 2) ∧
    (incrementAll (reset 2)
      ([LogF.fin 0].map (fun l => (l, none)))).log_vols.Chain' (· > ·)) := by
  constructor
  · norm_num
  · have := log_vols_default_steps 2 (by norm_num) [LogF.fin 0]
    simpa using this

end NS

namespace NS

/-- Unfolding the final-adjustment fold over an enumerated suffix. -/
theorem loopExit_fold_spec (nlive : ℕ) (live : List ClassicalPoint) :
    ∀ (n : ℕ) (s : NSintegralState) (ns : List ClassicalPoint)
      (evs : List LoopEvent),
      ((live.enumFrom n).foldl (loopExitStep nlive) (s, ns, evs)).1.logLs
          = s.logLs ++ live.map (fun p => p.logL) ∧
      ((live.enumFrom n).foldl (loopExitStep nlive) (s, ns, evs)).2.1
          = ns ++ live ∧
      ((live.enumFrom n).foldl (loopExitStep nlive) (s, ns, evs)).2.2
          = evs ++ ((live.enumFrom n).map
              (fun ip => [LoopEvent.increment ip.2.logL (nlive - ip.1),
                LoopEvent.appendNested])).flatten := by
  induction live with
  | nil => intro n s ns evs; simp [List.enumFrom]
  | cons a t ih =>
      intro n s ns evs
      have henum : (a :: t).enumFrom n = (n, a) :: t.enumFrom (n + 1) := rfl
      rw [henum]
      simp only [List.foldl_cons, List.map_cons, List.flatten]
      obtain ⟨ih1, ih2, ih3⟩ := ih (n + 1)
        (increment s a.logL (some (nlive - n))) (ns ++ [a])
        (evs ++ [.increment a.logL (nlive - n), .appendNested])
      refine ⟨?_, ?_, ?_⟩
      · rw [show loopExitStep nlive (s, ns, evs) (n, a)
          = (increment s a.logL (some (nlive - n)), ns ++ [a],
             evs ++ [.increment a.logL (nlive - n), .appendNested]) from rfl]
        rw [ih1]
        simp [increment]
      · rw [show loopExitStep nlive (s, ns, evs) (n, a)
          = (increment s a.logL (some (nlive - n)), ns ++ [a],
             evs ++ [.increment a.logL (nlive - n), .appendNested]) from rfl]
        rw [ih2]
        simp
      · rw [show loopExitStep nlive (s, ns, evs) (n, a)
          = (increment s a.logL (some (nlive - n)), ns ++ [a],
             evs ++ [.increment a.logL (nlive - n), .appendNested]) from rfl]
        rw [ih3]
        simp

/--
C4 (confirmed): when the classical loop exits, the sampler increments the
integrator exactly once per remaining live point, in ascending likelihood
order (the stored live points are sorted), passing `nlive - i` as the
`nlive` override for the `i`-th point; it appends every remaining live
point to `nested_samples`; and `finalise()` then replaces the stored
`logZ` with `log_integrate_log_trap(logLs, log_vols)` and returns it,
before the final KS test runs (see the event trace).
-/
theorem nested_sampling_loop_exit_spec (nlive : ℕ) (s : NSintegralState)
    (live nested : List ClassicalPoint)
    (hsort : live.Sorted (fun a b => a.logL.le b.logL)) :
    ((nested_sampling_loop_exit nlive s live nested).1.1).logLs
        = s.logLs ++ live.map (fun p => p.logL) ∧
    (live.map (fun p => p.logL)).Sorted LogF.le ∧
    (nested_sampling_loop_exit nlive s live nested).2.1 = nested ++ live ∧
    (nested_sampling_loop_exit nlive s live nested).2.2
        = ((live.enum.map
            (fun ip => [LoopEvent.increment ip.2.logL (nlive - ip.1),
              LoopEvent.appendNested])).flatten) ++
          [LoopEvent.finalise, LoopEvent.ksTest] ∧
    ((nested_sampling_loop_exit nlive s live nested).1.1).logZ
        = log_integrate_log_trap
            ((nested_sampling_loop_exit nlive s live nested).1.1).logLs
            ((nested_sampling_loop_exit nlive s live nested).1.1).log_vols ∧
    (nested_sampling_loop_exit nlive s live nested).1.2
        = ((nested_sampling_loop_exit nlive s live nested).1.1).logZ := by
  obtain ⟨h1, h2, h3⟩ := loopExit_fold_spec nlive live 0 s nested []
  have henum : live.enum = live.enumFrom 0 := rfl
  unfold nested_sampling_loop_exit
  rw [henum]
  dsimp only
  refine ⟨?_, List.Pairwise.map _ (fun a b h => h) hsort, ?_, ?_, ?_, ?_⟩
  · show (finaliseState _).1.logLs = _
    rw [show ∀ st : NSintegralState, (finaliseState st).1.logLs = st.logLs
      from fun st => rfl]
    exact h1
  · exact h2
  · rw [h3]
    simp
  · show (finaliseState _).1.logZ = _
    rfl
  · rfl

/-- Witness for C4: one live point, fresh integrator, `nlive = 1`. -/
theorem nested_sampling_loop_exit_spec_witness :
    ([(⟨[], .fin 0, .fin 0⟩ : ClassicalPoint)].Sorted
        (fun a b => a.logL.le b.logL)) ∧
    (((nested_sampling_loop_exit 1 (reset 1)
        [⟨[], .fin 0, .fin 0⟩] []).1.1).logLs
        = (reset 1).logLs ++
          [(⟨[], .fin 0, .fin 0⟩ : ClassicalPoint)].map (fun p => p.logL) ∧
    ([(⟨[], .fin 0, .fin 0⟩ : ClassicalPoint)].map (fun p => p.logL)).Sorted LogF.le ∧
    (nested_sampling_loop_exit 1 (reset 1) [⟨[], .fin 0, .fin 0⟩] []).2.1
        = [] ++ [⟨[], .fin 0, .fin 0⟩] ∧
    (nested_sampling_loop_exit 1 (reset 1) [⟨[], .fin 0, .fin 0⟩] []).2.2
        = ((([(⟨[], .fin 0, .fin 0⟩ : ClassicalPoint)].enum.map
            (fun ip => [LoopEvent.increment ip.2.logL (1 - ip.1),
              LoopEvent.appendNested])).flatten) ++
          [LoopEvent.finalise, LoopEvent.ksTest]) ∧
    ((nested_sampling_loop_exit 1 (reset 1) [⟨[], .fin 0, .fin 0⟩] []).1.1).logZ
        = log_integrate_log_trap
            ((nested_sampling_loop_exit 1 (reset 1)
              [⟨[], .fin 0, .fin 0⟩] []).1.1).logLs
            ((nested_sampling_loop_exit 1 (reset 1)
              [⟨[], .fin 0, .fin 0⟩] []).1.1).log_vols ∧
    (nested_sampling_loop_exit 1 (reset 1) [⟨[], .fin 0, .fin 0⟩] []).1.2
        = ((nested_sampling_loop_exit 1 (reset 1)
            [⟨[], .fin 0, .fin 0⟩] []).1.1).logZ) := by
  constructor
  · simp
  · exact nested_sampling_loop_exit_spec 1 (reset 1) [⟨[], .fin 0, .fin 0⟩] []
      (by simp)

end NS

namespace Store

/-- In a store sorted ascending by `logL`, everything at or beyond the
left insertion rank of `v` has `logL >= v`. -/
theorem sorted_dropWhile_ge (v : ℚ) (l : List LivePoint)
    (hs : l.Sorted byLogL) :
    ∀ y ∈ l.dropWhile (fun a => decide (a.logL < v)), v ≤ y.logL := by
  induction l with
  | nil => simp
  | cons a t ih =>
      intro y hy
      by_cases ha : a.logL < v
      · rw [List.dropWhile_cons_of_pos (by simpa using ha)] at hy
        exact ih ((List.sorted_cons.mp hs).2) y hy
      · rw [List.dropWhile_cons_of_neg (by simpa using ha)] at hy
        rcases List.mem_cons.mp hy with rfl | hyt
        · exact not_lt.mp ha
        · exact le_trans (not_lt.mp ha) ((List.sorted_cons.mp hs).1 y hyt)

/-- The left insertion rank in the `logL` column, expressed as a
`takeWhile` on the points themselves. -/
theorem searchsorted_map_logL (live : List LivePoint) (v : ℚ) :
    searchsorted (live.map (fun q => q.logL)) v
      = (live.takeWhile (fun a => decide (a.logL < v))).length := by
  unfold searchsorted
  rw [List.takeWhile_map]
  rw [List.length_map]
  simp only [Function.comp_def]

/-- Full specification of a successful ranked insertion: under the caller's
precondition `p.logL > live[0].logL`, the rank is nonzero, the result has
the same length, is still sorted, holds `p` at slot `rank - 1`, and the
returned index is `rank - 1`. -/
theorem insert_spec (live : List LivePoint) (p : LivePoint)
    (hsort : live.Sorted byLogL) (hne : live ≠ [])
    (hgt : live.headI.logL < p.logL) :
    0 < searchsorted (live.map (fun q => q.logL)) p.logL ∧
    searchsorted (live.map (fun q => q.logL)) p.logL ≤ live.length ∧
    insert_live_point live p =
      .ok ((live.take (searchsorted (live.map (fun q => q.logL)) p.logL)).drop 1
            ++ [p] ++ live.drop (searchsorted (live.map (fun q => q.logL)) p.logL),
           (searchsorted (live.map (fun q => q.logL)) p.logL : ℤ) - 1) ∧
    ((live.take (searchsorted (live.map (fun q => q.logL)) p.logL)).drop 1
      ++ [p] ++ live.drop (searchsorted (live.map (fun q => q.logL)) p.logL)).length
        = live.length ∧
    ((live.take (searchsorted (live.map (fun q => q.logL)) p.logL)).drop 1
      ++ [p] ++ live.drop (searchsorted (live.map (fun q => q.logL)) p.logL)).Sorted byLogL ∧
    ((live.take (searchsorted (live.map (fun q => q.logL)) p.logL)).drop 1
      ++ [p] ++ live.drop (searchsorted (live.map (fun q => q.logL)) p.logL)).getD
        (searchsorted (live.map (fun q => q.logL)) p.logL - 1) default = p := by
  obtain ⟨a, t, rfl⟩ := List.exists_cons_of_ne_nil hne
  set k := searchsorted ((a :: t).map (fun q => q.logL)) p.logL with hk
  have hkw : k = ((a :: t).takeWhile (fun q => decide (q.logL < p.logL))).length :=
    searchsorted_map_logL (a :: t) p.logL
  have hhead : (a :: t).headI.logL = a.logL := rfl
  have hagt : a.logL < p.logL := by rwa [hhead] at hgt
  have hkpos : 0 < k := by
    rw [hkw, List.takeWhile_cons_of_pos (by simpa using hagt)]
    simp
  have htake : (a :: t).take k = (a :: t).takeWhile (fun q => decide (q.logL < p.logL)) := by
    rw [hkw]
    exact (List.prefix_iff_eq_take.mp (List.takeWhile_prefix _)).symm
  have hklen : k ≤ (a :: t).length := by
    rw [hkw]
    exact List.IsPrefix.length_le (List.takeWhile_prefix _)
  have hdrop : (a :: t).drop k = (a :: t).dropWhile (fun q => decide (q.logL < p.logL)) := by
    have happ : ((a :: t).takeWhile (fun q => decide (q.logL < p.logL)))
        ++ ((a :: t).dropWhile (fun q => decide (q.logL < p.logL))) = a :: t :=
      List.takeWhile_append_dropWhile _ _
    conv_lhs => rw [← happ]
    rw [hkw, List.drop_left]
  have hmem_take : ∀ x ∈ ((a :: t).take k).drop 1, x.logL < p.logL := by
    intro x hx
    have hx' : x ∈ (a :: t).take k := List.mem_of_mem_drop hx
    rw [htake] at hx'
    simpa using List.mem_takeWhile_imp hx'
  have hmem_drop : ∀ y ∈ (a :: t).drop k, p.logL ≤ y.logL := by
    intro y hy
    rw [hdrop] at hy
    exact sorted_dropWhile_ge p.logL (a :: t) hsort y hy
  have hsorted_take : (((a :: t).take k).drop 1).Sorted byLogL :=
    hsort.sublist (((a :: t).take k).drop_sublist 1 |>.trans ((a :: t).take_sublist k))
  have hsorted_drop : ((a :: t).drop k).Sorted byLogL :=
    hsort.sublist ((a :: t).drop_sublist k)
  have hlen_take : ((a :: t).take k).length = k := by
    rw [List.length_take]
    omega
  refine ⟨hkpos, hklen, ?_, ?_, ?_, ?_⟩
  · unfold insert_live_point
    rw [← hk]
    rw [if_neg (by omega)]
  · simp only [List.length_append, List.length_drop, List.length_singleton,
      hlen_take]
    omega
  · rw [List.append_assoc]
    rw [List.Sorted, List.pairwise_append]
    refine ⟨hsorted_take, ?_, ?_⟩
    · rw [List.singleton_append, List.pairwise_cons]
      exact ⟨fun y hy => hmem_drop y hy, hsorted_drop⟩
    · intro x hx y hy
      have hxlt := hmem_take x hx
      rcases List.mem_cons.mp hy with rfl | hyb
      · exact le_of_lt hxlt
      · exact le_trans (le_of_lt hxlt) (hmem_drop y hyb)
  · have hlenA : (((a :: t).take k).drop 1).length = k - 1 := by
      rw [List.length_drop, hlen_take]
    rw [List.getD_eq_getElem?_getD, List.append_assoc, List.getElem?_append_right
      (by omega : (((a :: t).take k).drop 1).length ≤ k - 1)]
    rw [hlenA]
    simp

end Store

namespace Store

/--
C3 (confirmed): for a live-point store of length `nlive > 0` sorted
ascending by `logL` and a new point with `logL` strictly above the rank-0
element's, `insert_live_point` returns the zero-based index `k - 1` where
`k` is the left binary-search rank of the new `logL` in the `logL` column;
the store keeps length `nlive`, stays sorted, holds the new point at slot
`k - 1`, the returned index lies in `[0, nlive)`, and rank `k = 0` is
unreachable.
-/
theorem insert_live_point_correct (live : List LivePoint) (p : LivePoint)
    (nlive : ℕ) (hlen : live.length = nlive) (hpos : 0 < nlive)
    (hsort : live.Sorted byLogL) (hgt : live.headI.logL < p.logL) :
    0 < searchsorted (live.map (fun q => q.logL)) p.logL ∧
    ∃ live' : List LivePoint,
      insert_live_point live p =
        .ok (live', (searchsorted (live.map (fun q => q.logL)) p.logL : ℤ) - 1) ∧
      live'.length = nlive ∧
      live'.Sorted byLogL ∧
      live'.getD (searchsorted (live.map (fun q => q.logL)) p.logL - 1) default = p ∧
      searchsorted (live.map (fun q => q.logL)) p.logL - 1 < nlive := by
  have hne : live ≠ [] := by
    intro h
    rw [h] at hlen
    simp at hlen
    omega
  obtain ⟨hk, hkle, heq, hlen', hsort', hget⟩ := insert_spec live p hsort hne hgt
  refine ⟨hk, _, heq, by omega, hsort', hget, by omega⟩

/-- Witness for C3: insert `logL = 2` into the sorted store
`[logL = 0, logL = 1]`. -/
theorem insert_live_point_correct_witness :
    ([⟨[], 0, 0⟩, ⟨[], 0, 1⟩] : List LivePoint).length = 2 ∧ 0 < 2 ∧
    ([⟨[], 0, 0⟩, ⟨[], 0, 1⟩] : List LivePoint).Sorted byLogL ∧
    ([⟨[], 0, 0⟩, ⟨[], 0, 1⟩] : List LivePoint).headI.logL < (⟨[], 0, 2⟩ : LivePoint).logL ∧
    (0 < searchsorted (([⟨[], 0, 0⟩, ⟨[], 0, 1⟩] : List LivePoint).map
        (fun q => q.logL)) (⟨[], 0, 2⟩ : LivePoint).logL ∧
    ∃ live' : List LivePoint,
      insert_live_point [⟨[], 0, 0⟩, ⟨[], 0, 1⟩] ⟨[], 0, 2⟩ =
        .ok (live', (searchsorted (([⟨[], 0, 0⟩, ⟨[], 0, 1⟩] : List LivePoint).map
          (fun q => q.logL)) (⟨[], 0, 2⟩ : LivePoint).logL : ℤ) - 1) ∧
      live'.length = 2 ∧
      live'.Sorted byLogL ∧
      live'.getD (searchsorted (([⟨[], 0, 0⟩, ⟨[], 0, 1⟩] : List LivePoint).map
        (fun q => q.logL)) (⟨[], 0, 2⟩ : LivePoint).logL - 1) default = ⟨[], 0, 2⟩ ∧
      searchsorted (([⟨[], 0, 0⟩, ⟨[], 0, 1⟩] : List LivePoint).map
        (fun q => q.logL)) (⟨[], 0, 2⟩ : LivePoint).logL - 1 < 2) := by
  refine ⟨by decide, by decide, ?_, by decide, ?_⟩
  · unfold List.Sorted
    decide
  · exact insert_live_point_correct [⟨[], 0, 0⟩, ⟨[], 0, 1⟩] ⟨[], 0, 2⟩ 2
      (by decide) (by decide) (by unfold List.Sorted; decide) (by decide)

/--
C10 (counterexample): with a single live point (`nlive = 1`) and a new
point violating the precondition, the binary search yields rank 0 but the
operation does not fail: the shift `live[:-1] = live[1:0]` is an empty
assignment, the new point overwrites the only slot and the returned index
is `-1`.  So "rank 0 implies the operation fails" is false in general.
-/
theorem insert_live_point_rank0_counterexample :
    insert_live_point [⟨[], 0, 5⟩] ⟨[], 0, 3⟩ = .ok ([⟨[], 0, 3⟩], -1) := rfl

/--
C10 (amended): `insert_live_point` is partial: if the precondition
`new.logL > live[0].logL` is violated the rank is 0, the computed index is
`-1`, and for `nlive >= 2` the shift assigns a slice of length `nlive - 1`
from an empty slice so the operation fails with a broadcast error (the
error branch is reachable); for `nlive = 1` the empty shift succeeds and
the new point overwrites slot 0 with returned index `-1`.  Under the
precondition the error branch is unreachable and the returned index lies
in `[0, nlive - 1]`.
-/
theorem insert_live_point_partiality (live : List LivePoint) (p : LivePoint)
    (hsort : live.Sorted byLogL) (hne : live ≠ []) :
    (p.logL ≤ live.headI.logL → 2 ≤ live.length →
      insert_live_point live p = .error "ValueError: could not broadcast input array") ∧
    (p.logL ≤ live.headI.logL → live.length = 1 →
      insert_live_point live p = .ok ([p], -1)) ∧
    (live.headI.logL < p.logL →
      ∃ (live' : List LivePoint) (k : ℤ),
        insert_live_point live p = .ok (live', k) ∧ 0 ≤ k ∧ k < live.length) := by
  obtain ⟨a, t, rfl⟩ := List.exists_cons_of_ne_nil hne
  have hrank0 : p.logL ≤ a.logL →
      searchsorted ((a :: t).map (fun q => q.logL)) p.logL = 0 := by
    intro hle
    rw [searchsorted_map_logL]
    rw [List.takeWhile_cons_of_neg (by simpa using not_lt.mpr hle)]
    rfl
  refine ⟨?_, ?_, ?_⟩
  · intro hle hlen2
    unfold insert_live_point
    rw [hrank0 hle]
    rw [if_pos rfl, if_neg (by omega), if_neg (by omega)]
  · intro hle hlen1
    unfold insert_live_point
    rw [hrank0 hle]
    rw [if_pos rfl, if_neg (by omega), if_pos hlen1]
  · intro hgt
    obtain ⟨hk, hkle, heq, hlen', _, _⟩ := insert_spec (a :: t) p hsort hne hgt
    refine ⟨_, _, heq, by omega, ?_⟩
    have : (searchsorted ((a :: t).map (fun q => q.logL)) p.logL : ℤ)
        ≤ ((a :: t).length : ℤ) := by exact_mod_cast hkle
    omega

/-- Witness for C10 with the same sorted two-point store as C3. -/
theorem insert_live_point_partiality_witness :
    ([⟨[], 0, 0⟩, ⟨[], 0, 1⟩] : List LivePoint).Sorted byLogL ∧
    ([⟨[], 0, 0⟩, ⟨[], 0, 1⟩] : List LivePoint) ≠ [] ∧
    (((⟨[], 0, -1⟩ : LivePoint).logL ≤ ([⟨[], 0, 0⟩, ⟨[], 0, 1⟩] : List LivePoint).headI.logL →
       2 ≤ ([⟨[], 0, 0⟩, ⟨[], 0, 1⟩] : List LivePoint).length →
       insert_live_point [⟨[], 0, 0⟩, ⟨[], 0, 1⟩] ⟨[], 0, -1⟩ =
         .error "ValueError: could not broadcast input array") ∧
     ((⟨[], 0, -1⟩ : LivePoint).logL ≤ ([⟨[], 0, 0⟩, ⟨[], 0, 1⟩] : List LivePoint).headI.logL →
       ([⟨[], 0, 0⟩, ⟨[], 0, 1⟩] : List LivePoint).length = 1 →
       insert_live_point [⟨[], 0, 0⟩, ⟨[], 0, 1⟩] ⟨[], 0, -1⟩ = .ok ([⟨[], 0, -1⟩], -1)) ∧
     (([⟨[], 0, 0⟩, ⟨[], 0, 1⟩] : List LivePoint).headI.logL < (⟨[], 0, -1⟩ : LivePoint).logL →
       ∃ (live' : List LivePoint) (k : ℤ),
         insert_live_point [⟨[], 0, 0⟩, ⟨[], 0, 1⟩] ⟨[], 0, -1⟩ = .ok (live', k) ∧
         0 ≤ k ∧ k < ([⟨[], 0, 0⟩, ⟨[], 0, 1⟩] : List LivePoint).length)) := by
  refine ⟨?_, by decide, ?_⟩
  · unfold List.Sorted
    decide
  · exact insert_live_point_partiality [⟨[], 0, 0⟩, ⟨[], 0, 1⟩] ⟨[], 0, -1⟩
      (by unfold List.Sorted; decide) (by decide)

end Store

namespace Pop

theorem npLe_total (a b : PopPoint) : npLe a b || npLe b a := by
  obtain ⟨pa, Pa, la⟩ := a
  obtain ⟨pb, Pb, lb⟩ := b
  cases la <;> cases lb <;> simp [npLe] <;> exact le_total _ _

theorem npLe_trans (a b c : PopPoint) : npLe a b → npLe b c → npLe a c := by
  obtain ⟨pa, Pa, la⟩ := a
  obtain ⟨pb, Pb, lb⟩ := b
  obtain ⟨pc, Pc, lc⟩ := c
  cases la <;> cases lb <;> cases lc <;> simp [npLe] <;>
    exact fun h1 h2 => le_trans h1 h2

/-- Invariants of the filling loop: a successful fill has exactly `nlive`
points, all of which passed the `!= -inf` checks. -/
theorem populateAux_spec (nlive : ℕ) (stream : List PopPoint) :
    ∀ acc : List PopPoint,
      (∀ x ∈ acc, x.logP.neNegInf ∧ x.logL.neNegInf) →
      ∀ out, populateAux nlive stream acc = some out →
        out.length = nlive ∧
        ∀ x ∈ out, x.logP.neNegInf ∧ x.logL.neNegInf := by
  induction stream with
  | nil =>
      intro acc hacc out hout
      unfold populateAux at hout
      split at hout
      · cases hout
        exact ⟨by assumption, hacc⟩
      · cases hout
  | cons cand rest ih =>
      intro acc hacc out hout
      unfold populateAux at hout
      split at hout
      · cases hout
        exact ⟨by assumption, hacc⟩
      · split at hout
        · rename_i hcond
          refine ih (acc ++ [cand]) ?_ out hout
          intro x hx
          rcases List.mem_append.mp hx with hx | hx
          · exact hacc x hx
          · rcases List.mem_singleton.mp hx with rfl
            simp only [Bool.and_eq_true] at hcond
            exact hcond
        · exact ih acc hacc out hout

/--
C7 (amended): if `populate_live_points` completes, the store holds exactly
`nlive` points, sorted ascending by `logL` in numpy's sort order (NaN
last), and every stored point has `logP != -inf` and `logL != -inf`.
Points whose `logP` or `logL` is exactly `-inf` are rejected, but NaN (and
`+inf`) values are *not* rejected: `NaN != -np.inf` is true, and a NaN
`logL` only triggers a warning.
-/
theorem populate_live_points_spec (nlive : ℕ) (stream : List PopPoint)
    (out : List PopPoint)
    (h : populate_live_points nlive stream = some out) :
    out.length = nlive ∧
    out.Pairwise (fun a b => npLe a b = true) ∧
    ∀ x ∈ out, x.logP ≠ .neginf ∧ x.logL ≠ .neginf := by
  unfold populate_live_points at h
  cases hfill : populateAux nlive stream [] with
  | none => rw [hfill] at h; cases h
  | some filled =>
      rw [hfill] at h
      rw [show (some filled).map (fun l => l.mergeSort npLe)
          = some (filled.mergeSort npLe) from rfl] at h
      have hms : filled.mergeSort npLe = out := Option.some.inj h
      obtain ⟨hlen, hchecks⟩ := populateAux_spec nlive stream [] (by simp)
        filled hfill
      have hperm : (filled.mergeSort npLe).Perm filled :=
        List.mergeSort_perm filled npLe
      refine ⟨?_, ?_, ?_⟩
      · rw [← hms, hperm.length_eq, hlen]
      · rw [← hms]
        exact List.sorted_mergeSort
          (fun a b c => npLe_trans a b c)
          (fun a b => npLe_total a b) filled
      · intro x hx
        rw [← hms] at hx
        have hx' : x ∈ filled := (List.mem_mergeSort).mp hx
        obtain ⟨h1, h2⟩ := hchecks x hx'
        constructor
        · intro hxe; rw [hxe] at h1; cases h1
        · intro hxe; rw [hxe] at h2; cases h2

/-- Witness for C7 at `nlive = 1` with a single acceptable candidate. -/
theorem populate_live_points_spec_witness :
    populate_live_points 1 [⟨[], .fin 0, .fin 0⟩] = some [⟨[], .fin 0, .fin 0⟩] ∧
    (([⟨[], .fin 0, .fin 0⟩] : List PopPoint).length = 1 ∧
     ([⟨[], .fin 0, .fin 0⟩] : List PopPoint).Pairwise (fun a b => npLe a b = true) ∧
     ∀ x ∈ ([⟨[], .fin 0, .fin 0⟩] : List PopPoint),
       x.logP ≠ .neginf ∧ x.logL ≠ .neginf) := by
  have h : populate_live_points 1 [⟨[], .fin 0, .fin 0⟩]
      = some [⟨[], .fin 0, .fin 0⟩] := by
    have hfill : populateAux 1 [(⟨[], .fin 0, .fin 0⟩ : PopPoint)] []
        = some [⟨[], .fin 0, .fin 0⟩] := by
      unfold populateAux
      simp only [List.length_nil, FVal.neNegInf, Bool.and_self, if_neg
        (by omega : ¬ (0 : ℕ) = 1), if_pos rfl, List.nil_append]
      unfold populateAux
      simp
    unfold populate_live_points
    rw [hfill]
    simp
  exact ⟨h, populate_live_points_spec 1 [⟨[], .fin 0, .fin 0⟩]
    [⟨[], .fin 0, .fin 0⟩] h⟩

/--
C7 (counterexample): a candidate with `logL = NaN` passes the population
check (`NaN != -inf` is true) and is stored, so "every stored point has a
finite logL; NaN is rejected during population" is false.
-/
theorem populate_live_points_nan_counterexample :
    populate_live_points 1 [⟨[], .fin 0, .nan⟩] = some [⟨[], .fin 0, .nan⟩] ∧
    FVal.isfinite (⟨[], .fin 0, .nan⟩ : PopPoint).logL = false := by
  constructor
  · have hfill : populateAux 1 [(⟨[], .fin 0, .nan⟩ : PopPoint)] []
        = some [⟨[], .fin 0, .nan⟩] := by
      unfold populateAux
      simp only [List.length_nil, FVal.neNegInf, Bool.and_self, if_neg
        (by omega : ¬ (0 : ℕ) = 1), if_pos rfl, List.nil_append]
      unfold populateAux
      simp
    unfold populate_live_points
    rw [hfill]
    simp
  · rfl

end Pop

namespace Train

/--
C8 (code bug, failing input): with `memory = 2` and nested samples
`[0, 1, 2]`, the code's training set is `live ++ [1]` (the single sample
at index `-2`), while the claim/spec require `live ++ [1, 2]` (the last
two samples).  (In numpy the source expression additionally raises —
`np.concatenate` rejects the 0-d scalar `nested_samples[-memory]`.)
With `memory` unset or with fewer than `memory` nested samples both agree
on the live points alone.
-/
theorem check_state_memory_bug :
    training_data ([] : List ℕ) [0, 1, 2] 2 = [1] ∧
    training_data_spec ([] : List ℕ) [0, 1, 2] 2 = [1, 2] ∧
    training_data ([] : List ℕ) [0, 1, 2] 2 ≠
      training_data_spec ([] : List ℕ) [0, 1, 2] 2 ∧
    training_data ([] : List ℕ) [0, 1, 2] 0 =
      training_data_spec ([] : List ℕ) [0, 1, 2] 0 ∧
    training_data ([] : List ℕ) [0] 2 = training_data_spec ([] : List ℕ) [0] 2 := by
  refine ⟨rfl, rfl, by decide, rfl, rfl⟩

end Train

namespace Imp

/-- `b <= log(exp b + exp c)`. -/
theorem le_log_add_exp (b c : ℝ) : b ≤ Real.log (Real.exp b + Real.exp c) := by
  have h1 : Real.exp b ≤ Real.exp b + Real.exp c := by
    have := Real.exp_pos c
    linarith
  calc b = Real.log (Real.exp b) := (Real.log_exp b).symm
    _ ≤ Real.log (Real.exp b + Real.exp c) :=
        Real.log_le_log (Real.exp_pos b) h1

theorem logaddexp_natLog_not_nan (N : ℕ) (v : LogF) (hv : v.isnan = false) :
    (LogF.logaddexp (natLog N) v).isnan = false := by
  unfold natLog
  split
  · cases v <;> simp_all [LogF.logaddexp, LogF.isnan]
  · cases v <;> simp_all [LogF.logaddexp, LogF.isnan]

theorem natLog_le_logaddexp (N : ℕ) (v : LogF) (hv : v.isnan = false) :
    (natLog N).le (LogF.logaddexp (natLog N) v) := by
  unfold natLog
  split
  · cases v <;> simp_all [LogF.logaddexp, LogF.le, LogF.isnan]
  · cases v with
    | nan => simp_all [LogF.isnan]
    | neginf => simp [LogF.logaddexp, LogF.le]
    | posinf => simp [LogF.logaddexp, LogF.le]
    | fin y =>
        show LogF.le _ _
        simp only [LogF.logaddexp, LogF.le]
        exact le_log_add_exp _ y

/-- `logaddexp` can only grow a value: if `v <= x` and `y` is not NaN then
`v <= logaddexp x y`. -/
theorem le_logaddexp_right (v x y : LogF) (hvx : v.le x) (hy : y.isnan = false) :
    v.le (LogF.logaddexp x y) := by
  cases v <;> cases x <;> cases y <;>
    simp_all [LogF.le, LogF.logaddexp, LogF.isnan] <;>
    exact le_trans (by assumption) (le_log_add_exp _ _)

/-- Successful `_compute_log_Q_combined` output: every entry is non-NaN
and bounded below by the prior component `initial_log_q`. -/
theorem compute_log_Q_combined_ok (mp : MetaProposal)
    (rows : List (List LogF × LogF)) (logqj : Option (List LogF)) (n : ℕ)
    (out : List LogF)
    (h : compute_log_Q_combined mp rows logqj n = .ok out) :
    ∀ q ∈ out, q.isnan = false ∧ (natLog mp.initialDraws).le q := by
  unfold compute_log_Q_combined at h
  split at h
  · cases h
  · split at h
    · cases h
    · rename_i hnan1 hnan2
      have hout : (preLogQ mp rows logqj n).map
          (fun v => LogF.logaddexp (natLog mp.initialDraws) v) = out :=
        Except.ok.inj h
      intro q hq
      rw [← hout] at hq
      obtain ⟨v, hv, rfl⟩ := List.mem_map.mp hq
      have hvn : v.isnan = false := by
        have h1 : ((preLogQ mp rows logqj n).any (fun v => v.isnan)) = false :=
          Bool.not_eq_true _ |>.mp hnan1
        have h2 := List.any_eq_false.mp h1
        simpa using h2 v hv
      exact ⟨logaddexp_natLog_not_nan _ v hvn, natLog_le_logaddexp _ v hvn⟩

/-- Successful batch processing: every produced sample has `logW = -logQ`
and `logQ` non-NaN, bounded below by `initial_log_q`. -/
theorem processBatch_ok (mp : MetaProposal) (n : ℕ) (names : List String)
    (logLmin : Option LogF) (batch : List Candidate) (out : List Sample)
    (h : processBatch mp n names logLmin batch = .ok out) :
    ∀ s ∈ out, s.logW = s.logQ.neg ∧ s.logQ.isnan = false ∧
      (natLog mp.initialDraws).le s.logQ := by
  have hbs : ∀ qs : List LogF,
      compute_log_Q_combined mp ((keptOf batch).map (fun c => (c.row, c.logj)))
        (some ((keptOf batch).map (fun c => c.logqj))) n = .ok qs →
      ∀ s ∈ batchSamples batch qs, s.logW = s.logQ.neg ∧
        s.logQ.isnan = false ∧ (natLog mp.initialDraws).le s.logQ := by
    intro qs hc s hs
    have hs2 : s ∈ ((keptOf batch).zip qs).map (fun p => mkSample p.1 p.2) :=
      List.mem_of_mem_filter hs
    obtain ⟨p, hp, rfl⟩ := List.mem_map.mp hs2
    have hq : p.2 ∈ qs := (List.of_mem_zip hp).2
    obtain ⟨h1, h2⟩ := compute_log_Q_combined_ok mp _ _ n qs hc p.2 hq
    exact ⟨rfl, h1, h2⟩
  unfold processBatch at h
  split at h
  · cases h
    intro s hs
    cases hs
  · cases hc : compute_log_Q_combined mp
        ((keptOf batch).map (fun c => (c.row, c.logj)))
        (some ((keptOf batch).map (fun c => c.logqj))) n with
    | error e => rw [hc] at h; cases h
    | ok qs =>
        rw [hc] at h
        dsimp only at h
        split at h
        · cases h
          intro s hs
          cases hs
        · rcases logLmin with _ | lm
          · dsimp only at h
            cases h
            exact hbs qs hc
          · dsimp only at h
            split at h
            · cases h
              exact hbs qs hc
            · cases h

/-- The batch loop preserves the per-sample guarantees. -/
theorem drawLoop_ok (mp : MetaProposal) (n : ℕ) (names : List String)
    (logLmin : Option LogF) (batches : List (List Candidate)) :
    ∀ (nAcc : ℕ) (samples out : List Sample),
      (∀ s ∈ samples, s.logW = s.logQ.neg ∧ s.logQ.isnan = false ∧
        (natLog mp.initialDraws).le s.logQ) →
      drawLoop mp n names logLmin batches nAcc samples = .ok out →
      ∀ s ∈ out, s.logW = s.logQ.neg ∧ s.logQ.isnan = false ∧
        (natLog mp.initialDraws).le s.logQ := by
  induction batches with
  | nil =>
      intro nAcc samples out hinv h
      unfold drawLoop at h
      cases h
      exact hinv
  | cons b rest ih =>
      intro nAcc samples out hinv h
      unfold drawLoop at h
      split at h
      · cases hb : processBatch mp n names logLmin b with
        | error e => rw [hb] at h; cases h
        | ok xs =>
            rw [hb] at h
            refine ih _ _ out ?_ h
            intro s hs
            rcases List.mem_append.mp hs with hs | hs
            · exact hinv s hs
            · exact processBatch_ok mp n names logLmin b xs hb s hs
      · cases h
        exact hinv

end Imp

namespace Imp

/-- Every sample returned by a successful `draw` satisfies the meta-proposal
weight contract. -/
theorem draw_ok (mp : MetaProposal) (n : ℕ) (names : List String)
    (logLmin : Option LogF) (batches : List (List Candidate))
    (out : List Sample)
    (h : draw mp n names logLmin batches = .ok out) :
    ∀ s ∈ out, s.logW = s.logQ.neg ∧ (natLog mp.initialDraws).le s.logQ := by
  unfold draw at h
  cases hl : drawLoop mp n names logLmin batches 0 [] with
  | error e => rw [hl] at h; cases h
  | ok samples =>
      rw [hl] at h
      dsimp only at h
      have hsam : ∀ s ∈ samples, s.logW = s.logQ.neg ∧ s.logQ.isnan = false ∧
          (natLog mp.initialDraws).le s.logQ :=
        drawLoop_ok mp n names logLmin batches 0 [] samples
          (by intro s hs; cases hs) hl
      rcases logLmin with _ | lm
      · dsimp only at h
        cases h
        intro s hs
        have hmem := hsam s (List.mem_of_mem_take hs)
        exact ⟨hmem.1, hmem.2.2⟩
      · dsimp only at h
        split at h
        · cases h
        · split at h
          · cases h
          · cases hc : compute_log_Q_combined mp
                ((samples.take (sliceIdx n lm samples + 1)).map
                  (fun s => (s.row, s.logj))) none 0 with
            | error e => rw [hc] at h; cases h
            | ok qs2 =>
                rw [hc] at h
                dsimp only at h
                cases h
                intro s hs
                obtain ⟨p, hp, rfl⟩ := List.mem_map.mp hs
                have hq : p.2 ∈ qs2 := (List.of_mem_zip hp).2
                obtain ⟨h1, h2⟩ := compute_log_Q_combined_ok mp _ _ 0 qs2 hc p.2 hq
                exact ⟨rfl, h2⟩

/--
C5 (amended): meta-proposal consistency.  (i) Every sample returned by a
successful `draw` has `logW == -logQ` and `logQ >= initial_log_q` — the
combined meta-proposal always folds in the prior component
`initial_log_q = log(N_initial)` via `logaddexp`, which can only increase
the log-density.  (ii) `update_samples` sets `logW` to the negation of
`logQ` on every updated sample, and (iii) preserves the lower bound
`logQ >= initial_log_q` (for any count whose log bounds the old `logQ`)
*provided the new level's weighted log-density increment is not NaN*:
unlike `draw`, `update_samples` (lines 516-542) has no NaN guard, so a NaN
flow log-density is recorded silently as `logQ = NaN` and the bound fails
(see the C5 counterexample).
-/
theorem meta_proposal_consistency :
    (∀ (mp : MetaProposal) (n : ℕ) (names : List String)
        (logLmin : Option LogF) (batches : List (List Candidate))
        (out : List Sample),
      draw mp n names logLmin batches = .ok out →
      ∀ s ∈ out, s.logW = s.logQ.neg ∧ (natLog mp.initialDraws).le s.logQ) ∧
    (∀ (lc : ℤ) (hasDraws : Bool) (w : ℕ) (flowOut : List (LogF × LogF))
        (samples out : List Sample),
      update_samples lc hasDraws w flowOut samples = .ok out →
      ∀ s ∈ out, s.logW = s.logQ.neg) ∧
    (∀ (N w : ℕ) (logq logj : LogF) (s : Sample),
      (natLog N).le s.logQ →
      ((logq.add logj).add (natLog w)).isnan = false →
      (natLog N).le (updateSample w logq logj s).logQ) := by
  refine ⟨fun mp n names lm batches out h => draw_ok mp n names lm batches out h,
    ?_, ?_⟩
  · intro lc hasDraws w flowOut samples out h s hs
    unfold update_samples at h
    split at h
    · cases h
    · split at h
      · cases h
      · cases h
        obtain ⟨p, hp, rfl⟩ := List.mem_map.mp hs
        rfl
  · intro N w logq logj s h1 h2
    exact le_logaddexp_right _ _ _ h1 h2

/--
C5 (counterexample): `update_samples` has no NaN guard — unlike the draw
path, which raises inside `_compute_log_Q_combined`.  With
`initial_log_q = log 1` and a sample whose `logQ = 0` satisfies the bound,
a level update whose flow log-density is NaN silently records
`logQ = logaddexp(0, NaN) = NaN`, and the claimed unconditional bound
`logQ >= initial_log_q` is false for the updated sample.
-/
theorem meta_proposal_bound_nan_counterexample :
    update_samples 0 true 1 [(LogF.nan, LogF.fin 0)]
        [⟨[], .fin 0, .fin 0, 0, .fin 0, .fin 0, .fin 0, [], .fin 0⟩]
      = .ok [updateSample 1 LogF.nan (LogF.fin 0)
          ⟨[], .fin 0, .fin 0, 0, .fin 0, .fin 0, .fin 0, [], .fin 0⟩] ∧
    (natLog 1).le
      (⟨[], .fin 0, .fin 0, 0, .fin 0, .fin 0, .fin 0, [], .fin 0⟩ : Sample).logQ ∧
    (updateSample 1 LogF.nan (LogF.fin 0)
        ⟨[], .fin 0, .fin 0, 0, .fin 0, .fin 0, .fin 0, [], .fin 0⟩).logQ
      = LogF.nan ∧
    ¬ (natLog 1).le (updateSample 1 LogF.nan (LogF.fin 0)
        ⟨[], .fin 0, .fin 0, 0, .fin 0, .fin 0, .fin 0, [], .fin 0⟩).logQ := by
  refine ⟨?_, ?_, rfl, ?_⟩
  · unfold update_samples
    norm_num
  · show (natLog 1).le (LogF.fin 0)
    simp [natLog, LogF.le, Real.log_one]
  · intro hcon
    have hq : (updateSample 1 LogF.nan (LogF.fin 0)
        ⟨[], .fin 0, .fin 0, 0, .fin 0, .fin 0, .fin 0, [], .fin 0⟩).logQ
        = LogF.nan := rfl
    rw [hq] at hcon
    revert hcon
    simp [natLog, LogF.le]

/-- Witness for C5: a draw returning one sample that satisfies the weight
contract, a singleton update, and bound preservation at `N = 1`. -/
theorem meta_proposal_consistency_witness :
    (draw ⟨1, [1], 1⟩ 1 ["x"] none
        [[⟨[0], true, [.fin 0], .fin 0, .fin 0, .fin 0, .fin 0⟩]]
      = .ok [mkSample ⟨[0], true, [.fin 0], .fin 0, .fin 0, .fin 0, .fin 0⟩
          (LogF.logaddexp (natLog 1)
            (((LogF.fin 0).add (natLog 1)).add (LogF.fin 0)))] ∧
      (∀ s ∈ [mkSample ⟨[0], true, [.fin 0], .fin 0, .fin 0, .fin 0, .fin 0⟩
          (LogF.logaddexp (natLog 1)
            (((LogF.fin 0).add (natLog 1)).add (LogF.fin 0)))],
        s.logW = s.logQ.neg ∧
        (natLog (⟨1, [1], 1⟩ : MetaProposal).initialDraws).le s.logQ)) ∧
    (update_samples 0 true 1 [(.fin 0, .fin 0)]
        [⟨[], .fin 0, .fin 0, 0, .fin 0, .fin 0, .fin 0, [], .fin 0⟩]
        = .ok [updateSample 1 (.fin 0) (.fin 0)
            ⟨[], .fin 0, .fin 0, 0, .fin 0, .fin 0, .fin 0, [], .fin 0⟩] ∧
      (∀ s ∈ [updateSample 1 (.fin 0) (.fin 0)
          ⟨[], .fin 0, .fin 0, 0, .fin 0, .fin 0, .fin 0, [], .fin 0⟩],
        s.logW = s.logQ.neg)) ∧
    ((natLog 1).le (LogF.fin 0) ∧
      ((((LogF.fin 0).add (LogF.fin 0)).add (natLog 1)).isnan = false) ∧
      (natLog 1).le (updateSample 1 (.fin 0) (.fin 0)
        ⟨[], .fin 0, .fin 0, 0, .fin 0, .fin 0, .fin 0, [], .fin 0⟩).logQ) := by
  have hpbn : processBatch ⟨1, [1], 1⟩ 1 ["x"] none
      [⟨[0], true, [.fin 0], .fin 0, .fin 0, .fin 0, .fin 0⟩]
      = .ok [mkSample ⟨[0], true, [.fin 0], .fin 0, .fin 0, .fin 0, .fin 0⟩
          (LogF.logaddexp (natLog 1)
            (((LogF.fin 0).add (natLog 1)).add (LogF.fin 0)))] := by
    have hkept : keptOf [(⟨[0], true, [.fin 0], .fin 0, .fin 0, .fin 0, .fin 0⟩ : Candidate)]
        = [⟨[0], true, [.fin 0], .fin 0, .fin 0, .fin 0, .fin 0⟩] := by
      unfold keptOf
      rfl
    have hq : compute_log_Q_combined ⟨1, [1], 1⟩ [([LogF.fin 0], LogF.fin 0)]
        (some [LogF.fin 0]) 1
        = .ok [LogF.logaddexp (natLog 1)
            (((LogF.fin 0).add (natLog 1)).add (LogF.fin 0))] := by
      unfold compute_log_Q_combined preLogQ natLog
      simp [LogF.add, LogF.logaddexp, LogF.isnan]
    unfold processBatch
    rw [hkept]
    simp only [List.isEmpty_cons, List.map_cons, List.map_nil]
    rw [hq]
    dsimp only
    have hbs : batchSamples [(⟨[0], true, [.fin 0], .fin 0, .fin 0, .fin 0, .fin 0⟩ : Candidate)]
        [LogF.logaddexp (natLog 1) (((LogF.fin 0).add (natLog 1)).add (LogF.fin 0))]
        = [mkSample ⟨[0], true, [.fin 0], .fin 0, .fin 0, .fin 0, .fin 0⟩
            (LogF.logaddexp (natLog 1) (((LogF.fin 0).add (natLog 1)).add (LogF.fin 0)))] := by
      unfold batchSamples
      rw [hkept]
      simp [mkSample, natLog, LogF.add, LogF.logaddexp, LogF.isfinite, LogF.neg]
    rw [hbs]
    simp only [List.isEmpty_cons, Bool.false_eq_true, if_false]
  have hdl : drawLoop ⟨1, [1], 1⟩ 1 ["x"] none
      [[⟨[0], true, [.fin 0], .fin 0, .fin 0, .fin 0, .fin 0⟩]] 0 []
      = .ok [mkSample ⟨[0], true, [.fin 0], .fin 0, .fin 0, .fin 0, .fin 0⟩
          (LogF.logaddexp (natLog 1)
            (((LogF.fin 0).add (natLog 1)).add (LogF.fin 0)))] := by
    unfold drawLoop
    rw [if_pos (by norm_num : (0 : ℕ) < 1), hpbn]
    dsimp only
    unfold drawLoop
    simp
  have hdraw : draw ⟨1, [1], 1⟩ 1 ["x"] none
      [[⟨[0], true, [.fin 0], .fin 0, .fin 0, .fin 0, .fin 0⟩]]
      = .ok [mkSample ⟨[0], true, [.fin 0], .fin 0, .fin 0, .fin 0, .fin 0⟩
          (LogF.logaddexp (natLog 1)
            (((LogF.fin 0).add (natLog 1)).add (LogF.fin 0)))] := by
    unfold draw
    rw [hdl]
    dsimp only
    simp
  have hupd : update_samples 0 true 1 [(.fin 0, .fin 0)]
      [⟨[], .fin 0, .fin 0, 0, .fin 0, .fin 0, .fin 0, [], .fin 0⟩]
      = .ok [updateSample 1 (.fin 0) (.fin 0)
          ⟨[], .fin 0, .fin 0, 0, .fin 0, .fin 0, .fin 0, [], .fin 0⟩] := by
    unfold update_samples
    norm_num
  have hle1 : (natLog 1).le (LogF.fin 0) := by
    simp [natLog, LogF.le, Real.log_one]
  have hnn1 : ((((LogF.fin 0).add (LogF.fin 0)).add (natLog 1)).isnan = false) := by
    simp [natLog, LogF.add, LogF.isnan]
  refine ⟨⟨hdraw, meta_proposal_consistency.1 ⟨1, [1], 1⟩ 1 ["x"] none _ _ hdraw⟩,
    ⟨hupd, meta_proposal_consistency.2.1 0 true 1 [(.fin 0, .fin 0)] _ _ hupd⟩,
    hle1, hnn1,
    meta_proposal_consistency.2.2 1 1 (.fin 0) (.fin 0)
      ⟨[], .fin 0, .fin 0, 0, .fin 0, .fin 0, .fin 0, [], .fin 0⟩ hle1 hnn1⟩

end Imp

namespace Imp

/--
C6 (code bug): in non-leaky mode (`logL_min` given), the draw step crashes
on its first nonempty accepted batch: line 473 of
`src/nessai/proposal/importance.py` writes to the field `'logl'`
(lower case), which is not a field of the sample dtype
(`names + [logP, logL, it, logG, logQ, logW]`), so numpy raises `KeyError`
and the non-leaky draw never returns the claimed `n` samples with their
likelihoods stored in `logL`.  Concrete failing input: one batch with one
accepted candidate with finite values, `n = 1`, `logL_min = 0`.
-/
theorem draw_nonleaky_logl_keyerror :
    draw ⟨1, [1], 1⟩ 1 ["x"] (some (.fin 0))
      [[⟨[0], true, [.fin 0], .fin 0, .fin 0, .fin 0, .fin 0⟩]]
      = .error "KeyError: no field named logl" := by
  have hpb : processBatch ⟨1, [1], 1⟩ 1 ["x"] (some (.fin 0))
      [⟨[0], true, [.fin 0], .fin 0, .fin 0, .fin 0, .fin 0⟩]
      = .error "KeyError: no field named logl" := by
    have hkept : keptOf [(⟨[0], true, [.fin 0], .fin 0, .fin 0, .fin 0, .fin 0⟩ : Candidate)]
        = [⟨[0], true, [.fin 0], .fin 0, .fin 0, .fin 0, .fin 0⟩] := by
      unfold keptOf
      rfl
    have hq : compute_log_Q_combined ⟨1, [1], 1⟩ [([LogF.fin 0], LogF.fin 0)]
        (some [LogF.fin 0]) 1
        = .ok [LogF.logaddexp (natLog 1)
            (((LogF.fin 0).add (natLog 1)).add (LogF.fin 0))] := by
      unfold compute_log_Q_combined preLogQ natLog
      simp [LogF.add, LogF.logaddexp, LogF.isnan]
    unfold processBatch
    rw [hkept]
    simp only [List.isEmpty_cons, List.map_cons, List.map_nil]
    rw [hq]
    dsimp only
    have hbs : batchSamples [(⟨[0], true, [.fin 0], .fin 0, .fin 0, .fin 0, .fin 0⟩ : Candidate)]
        [LogF.logaddexp (natLog 1) (((LogF.fin 0).add (natLog 1)).add (LogF.fin 0))]
        = [mkSample ⟨[0], true, [.fin 0], .fin 0, .fin 0, .fin 0, .fin 0⟩
            (LogF.logaddexp (natLog 1) (((LogF.fin 0).add (natLog 1)).add (LogF.fin 0)))] := by
      unfold batchSamples
      rw [hkept]
      simp [mkSample, natLog, LogF.add, LogF.logaddexp, LogF.isfinite, LogF.neg]
    rw [hbs]
    simp only [List.isEmpty_cons, Bool.false_eq_true, if_false]
    rw [if_neg (by decide : ¬ "logl" ∈ sampleFields ["x"])]
  unfold draw drawLoop
  rw [if_pos (by norm_num : (0 : ℕ) < 1), hpb]

/-- A batch in `logL_min` mode either raises or contributes nothing:
the only `ok` results of `processBatch` skip the batch. -/
theorem processBatch_nonleaky_ok_empty (mp : MetaProposal) (n : ℕ)
    (names : List String) (lm : LogF) (batch : List Candidate)
    (hfield : "logl" ∉ sampleFields names) (out : List Sample)
    (h : processBatch mp n names (some lm) batch = .ok out) : out = [] := by
  unfold processBatch at h
  split at h
  · cases h
    rfl
  · cases hc : compute_log_Q_combined mp
        ((keptOf batch).map (fun c => (c.row, c.logj)))
        (some ((keptOf batch).map (fun c => c.logqj))) n with
    | error e => rw [hc] at h; cases h
    | ok qs =>
        rw [hc] at h
        dsimp only at h
        split at h
        · cases h
          rfl
        · cases h

/-- In `logL_min` mode the batch loop can only ever return its starting
sample list. -/
theorem drawLoop_nonleaky (mp : MetaProposal) (n : ℕ) (names : List String)
    (lm : LogF) (batches : List (List Candidate))
    (hfield : "logl" ∉ sampleFields names) :
    ∀ (nAcc : ℕ) (samples out : List Sample),
      drawLoop mp n names (some lm) batches nAcc samples = .ok out →
      out = samples := by
  induction batches with
  | nil =>
      intro nAcc samples out h
      unfold drawLoop at h
      exact (Except.ok.inj h).symm
  | cons b rest ih =>
      intro nAcc samples out h
      unfold drawLoop at h
      split at h
      · cases hb : processBatch mp n names (some lm) b with
        | error e => rw [hb] at h; cases h
        | ok xs =>
            have hxs : xs = [] :=
              processBatch_nonleaky_ok_empty mp n names lm b hfield xs hb
            rw [hb] at h
            subst hxs
            have := ih _ _ out h
            simpa using this
      · exact (Except.ok.inj h).symm

/--
C6, general form: the non-leaky draw (`logL_min` given) never succeeds for
any model whose parameters do not include a field literally named
`"logl"`: every batch with accepted candidates raises `KeyError` on
line 473, and if every batch is skipped the final `np.argmax` runs on an
empty array and raises.
-/
theorem draw_nonleaky_never_ok (mp : MetaProposal) (n : ℕ)
    (names : List String) (lm : LogF) (batches : List (List Candidate))
    (hfield : "logl" ∉ sampleFields names) :
    ∃ e, draw mp n names (some lm) batches = .error e := by
  unfold draw
  cases hl : drawLoop mp n names (some lm) batches 0 [] with
  | error e => exact ⟨e, rfl⟩
  | ok samples =>
      have hs : samples = [] :=
        drawLoop_nonleaky mp n names lm batches hfield 0 [] samples hl
      subst hs
      exact ⟨"ValueError: attempt to get argmax of an empty sequence", rfl⟩

end Imp

namespace Imp

/-- The integrator clamps a NaN information value to `0` before pushing
(lines 69-71 of `src/flowproposal/nestedsampler.py`): any entry of `info`
after an `increment` is either inherited or non-NaN. -/
theorem increment_info_no_nan (s : NS.NSintegralState) (l : LogF)
    (n : Option ℕ) :
    ∀ x ∈ (NS.increment s l n).info, x ∈ s.info ∨ x.isnan = false := by
  intro x hx
  have hinfo : (NS.increment s l n).info = NS.infoNext s l n := rfl
  rw [hinfo] at hx
  unfold NS.infoNext at hx
  split at hx
  · rcases List.mem_append.mp hx with hx | hx
    · exact Or.inl hx
    · rcases List.mem_singleton.mp hx with rfl
      right
      split
      · rfl
      · rename_i hnan
        simpa using hnan
  · exact Or.inl hx

/--
C9 (confirmed): the NaN raises-iff contract.  (i) The integrator's
information update never raises: a NaN value is clamped to `0`, so every
`info` entry an `increment` pushes is non-NaN.  (ii) The meta-proposal
density computation `_compute_log_Q_combined` raises exactly when the
computed `log_Q` contains a NaN (the NaN cannot survive the `logaddexp`
with the prior component unnoticed), and (iii) a successful call never
returns a NaN — the draw/update is aborted rather than recorded.
-/
theorem nan_handling_contract :
    (∀ (s : NS.NSintegralState) (l : LogF) (n : Option ℕ),
      ∀ x ∈ (NS.increment s l n).info, x ∈ s.info ∨ x.isnan = false) ∧
    (∀ (mp : MetaProposal) (rows : List (List LogF × LogF))
        (logqj : Option (List LogF)) (n : ℕ),
      (∃ e, compute_log_Q_combined mp rows logqj n = .error e) ↔
        (preLogQ mp rows logqj n).any (fun v => v.isnan) = true) ∧
    (∀ (mp : MetaProposal) (rows : List (List LogF × LogF))
        (logqj : Option (List LogF)) (n : ℕ) (out : List LogF),
      compute_log_Q_combined mp rows logqj n = .ok out →
      ∀ q ∈ out, q.isnan = false) := by
  refine ⟨increment_info_no_nan, ?_, ?_⟩
  · intro mp rows logqj n
    constructor
    · rintro ⟨e, he⟩
      by_contra hno
      have hno' : (preLogQ mp rows logqj n).any (fun v => v.isnan) = false :=
        Bool.not_eq_true _ |>.mp hno
      have hnn : ∀ v ∈ preLogQ mp rows logqj n, v.isnan = false := by
        intro v hv
        simpa using List.any_eq_false.mp hno' v hv
      have h2 : (((preLogQ mp rows logqj n).map
          (fun v => LogF.logaddexp (natLog mp.initialDraws) v)).any
            (fun v => v.isnan)) = false := by
        rw [List.any_eq_false]
        intro v hv
        obtain ⟨w, hw, rfl⟩ := List.mem_map.mp hv
        simp [logaddexp_natLog_not_nan mp.initialDraws w (hnn w hw)]
      unfold compute_log_Q_combined at he
      rw [if_neg (by rw [hno']; exact Bool.false_ne_true),
        if_neg (by rw [h2]; exact Bool.false_ne_true)] at he
      cases he
    · intro hany
      refine ⟨"There is a NaN in log q before initial!", ?_⟩
      unfold compute_log_Q_combined
      rw [if_pos hany]
  · intro mp rows logqj n out h q hq
    exact (compute_log_Q_combined_ok mp rows logqj n out h q hq).1

/-- Witness for C9: a NaN `logL` into a fresh integrator leaves `info`
untouched (`[0]`, non-NaN), and a NaN flow log-density makes
`_compute_log_Q_combined` raise. -/
theorem nan_handling_contract_witness :
    (LogF.fin 0 ∈ (NS.increment (NS.reset 1) .nan none).info ∧
      (LogF.fin 0 ∈ (NS.reset 1).info ∨ (LogF.fin 0).isnan = false)) ∧
    ((∃ e, compute_log_Q_combined ⟨1, [1], 1⟩ [([LogF.nan], LogF.fin 0)]
        none 0 = .error e) ↔
      (preLogQ ⟨1, [1], 1⟩ [([LogF.nan], LogF.fin 0)] none 0).any
        (fun v => v.isnan) = true) := by
  have hmem : LogF.fin 0 ∈ (NS.increment (NS.reset 1) .nan none).info := by
    have hinfo : (NS.increment (NS.reset 1) .nan none).info
        = NS.infoNext (NS.reset 1) .nan none := rfl
    rw [hinfo]
    unfold NS.infoNext
    rw [if_neg (by simp [NS.reset, LogF.isfinite])]
    simp [NS.reset]
  exact ⟨⟨hmem, nan_handling_contract.1 (NS.reset 1) .nan none (LogF.fin 0) hmem⟩,
    nan_handling_contract.2.1 ⟨1, [1], 1⟩ [([LogF.nan], LogF.fin 0)] none 0⟩

end Imp

